import Mathlib

/-!
Verification of the bidirectional Markdown / block-document conversion engine
of the intelligence-agent repository (`src/notion_publisher.py`).

Strings are modelled as `List Char`.  Python string primitives used by the
source (`rstrip`, `strip`, `lower`, `replace` on two-character patterns,
`split('\n')`, `'\n'.join`, `rfind`, `in`, `startswith`) are embedded as
executable Lean functions with the same semantics on the character sets the
program manipulates.

The three Python floating-point thresholds `max_length * 0.8 / 0.85 / 0.9`
in `_split_code_at_boundaries` are modelled by the exact rational
comparisons `5*k > 4*m`, `20*k > 17*m`, `10*k > 9*m`; for the integer
operands that occur here these agree with the IEEE-double comparison.

The source module `notion_publisher.py` references `re.search` inside
`_block_to_text` but never imports `re`; reaching that expression raises a
`NameError` at run time.  `blockToText` therefore returns `Except.error ()`
exactly on the paths that evaluate `re.search`.
-/

namespace NotionPublisher

/-- Python whitespace set for `str.rstrip` / `str.strip` / `str.isspace`
(ASCII portion, which is all the program ever strips). -/
def pyIsSpace (c : Char) : Bool :=
  c = ' ' || c = '\t' || c = '\n' || c = '\r' || c = '\x0b' || c = '\x0c'

/-- The upper-case → lower-case table of the ASCII range. -/
def upperLower : List (Char × Char) :=
  [('A', 'a'), ('B', 'b'), ('C', 'c'), ('D', 'd'), ('E', 'e'), ('F', 'f'),
   ('G', 'g'), ('H', 'h'), ('I', 'i'), ('J', 'j'), ('K', 'k'), ('L', 'l'),
   ('M', 'm'), ('N', 'n'), ('O', 'o'), ('P', 'p'), ('Q', 'q'), ('R', 'r'),
   ('S', 's'), ('T', 't'), ('U', 'u'), ('V', 'v'), ('W', 'w'), ('X', 'x'),
   ('Y', 'y'), ('Z', 'z')]

/-- ASCII lower-casing of one character, the part of Python `str.lower`
exercised by the language labels and heuristics of the source. -/
def lowerChar (c : Char) : Char :=
  match upperLower.find? (fun p => p.1 = c) with
  | some p => p.2
  | none => c

/-- Python `s.lower()`. -/
def asciiLower (s : List Char) : List Char := s.map lowerChar

/-- Python `s.lstrip()`. -/
def pyLstrip (s : List Char) : List Char := s.dropWhile pyIsSpace

/-- Python `s.rstrip()`. -/
def pyRstrip (s : List Char) : List Char :=
  (s.reverse.dropWhile pyIsSpace).reverse

/-- Python `s.strip()`. -/
def pyStrip (s : List Char) : List Char := pyRstrip (pyLstrip s)

/-- `escFree s` holds when `s` contains none of the two-character escape
sequences that `_convert_to_blocks` rewrites: a backslash followed by
`n`, `"` or another backslash. -/
def escFree : List Char → Bool
  | [] => true
  | [_] => true
  | a :: b :: rest =>
    if a = '\\' && (b = 'n' || b = '"' || b = '\\') then false
    else escFree (b :: rest)

/-- Python `s.replace(p₁p₂, rep)` for a two-character pattern (the only
patterns the source passes to `str.replace`): left-to-right scan, no
re-scanning of the replacement text. -/
def pyReplace2 (p₁ p₂ : Char) (rep : List Char) : List Char → List Char
  | [] => []
  | [c] => [c]
  | a :: b :: rest =>
    if a = p₁ && b = p₂ then rep ++ pyReplace2 p₁ p₂ rep rest
    else a :: pyReplace2 p₁ p₂ rep (b :: rest)

/-- The escape preprocessing of `_convert_to_blocks`:
`content.replace('\\n', '\n').replace('\\"', '"').replace('\\\\', '\\')`. -/
def unescape (s : List Char) : List Char :=
  pyReplace2 '\\' '\\' ['\\'] (pyReplace2 '\\' '"' ['"'] (pyReplace2 '\\' 'n' ['\n'] s))

/-- Python `s.split('\n')` (never returns an empty list; `""` yields `[""]`). -/
def pySplitLines : List Char → List (List Char)
  | [] => [[]]
  | c :: rest =>
    if c = '\n' then [] :: pySplitLines rest
    else
      match pySplitLines rest with
      | [] => [[c]]
      | l :: ls => (c :: l) :: ls

/-- Python `sep.join(parts)`. -/
def joinSep (sep : List Char) : List (List Char) → List Char
  | [] => []
  | [x] => x
  | x :: y :: t => x ++ sep ++ joinSep sep (y :: t)

/-- Concatenation of a list of chunks (`"".join`). -/
def concatAll : List (List Char) → List Char
  | [] => []
  | x :: t => x ++ concatAll t

/-- Python substring test `pat in s`. -/
def pyIn (pat : List Char) : List Char → Bool
  | [] => pat.isPrefixOf []
  | c :: t => pat.isPrefixOf (c :: t) || pyIn pat t

/-- Python `s.rfind(pat)`: index of the last occurrence of `pat` in `s`
(`none` for Python's `-1`). -/
def rfindSub (pat : List Char) : List Char → Option Nat
  | [] => if pat.isPrefixOf ([] : List Char) then some 0 else none
  | c :: rest =>
    match rfindSub pat rest with
    | some k => some (k + 1)
    | none => if pat.isPrefixOf (c :: rest) then some 0 else none

/-- The double-newline boundary `'\n\n'`. -/
def dnl : List Char := ['\n', '\n']

/-- Python `dict` lookup (`d.get(k)`); keys of the source dictionaries are
distinct, so first-match lookup is exact. -/
def dictGet (k : List Char) : List (List Char × List Char) → Option (List Char)
  | [] => none
  | (k', v) :: t => if k' = k then some v else dictGet k t

/-- The block model: the block dictionaries `_convert_to_blocks` builds and
`_block_to_text` consumes, with the single rich-text payload inlined. -/
inductive Block where
  | code (language text : List Char)
  | heading1 (text : List Char)
  | heading2 (text : List Char)
  | heading3 (text : List Char)
  | bulleted (text : List Char)
  | numbered (text : List Char)
  | quote (text : List Char)
  | paragraph (text : List Char)
  deriving DecidableEq, Repr

/-- The compile-time allow-list `notion_langs` of `_convert_to_blocks`. -/
def notionLangs : List (List Char × List Char) :=
  [("python".data, "python".data), ("javascript".data, "javascript".data),
   ("js".data, "javascript".data), ("typescript".data, "typescript".data),
   ("ts".data, "typescript".data), ("java".data, "java".data),
   ("c".data, "c".data), ("cpp".data, "c++".data), ("c++".data, "c++".data),
   ("c#".data, "c#".data), ("go".data, "go".data), ("rust".data, "rust".data),
   ("ruby".data, "ruby".data), ("php".data, "php".data),
   ("swift".data, "swift".data), ("kotlin".data, "kotlin".data),
   ("scala".data, "scala".data), ("shell".data, "shell".data),
   ("bash".data, "bash".data), ("sql".data, "sql".data),
   ("html".data, "html".data), ("css".data, "css".data),
   ("json".data, "json".data), ("yaml".data, "yaml".data),
   ("xml".data, "xml".data), ("markdown".data, "markdown".data),
   ("md".data, "markdown".data), ("dart".data, "dart".data),
   ("lua".data, "lua".data)]

/-- The render-time mapping `lang_map` of `_block_to_text`
(storage tag → Markdown fence label). -/
def langMap : List (List Char × List Char) :=
  [("plain text".data, "text".data), ("python".data, "python".data),
   ("javascript".data, "javascript".data), ("typescript".data, "typescript".data),
   ("java".data, "java".data), ("c".data, "c".data),
   ("c++".data, "cpp".data), ("c#".data, "csharp".data),
   ("go".data, "go".data), ("rust".data, "rust".data),
   ("ruby".data, "ruby".data), ("php".data, "php".data),
   ("swift".data, "swift".data), ("kotlin".data, "kotlin".data),
   ("scala".data, "scala".data), ("shell".data, "bash".data),
   ("bash".data, "bash".data), ("sql".data, "sql".data),
   ("html".data, "html".data), ("css".data, "css".data),
   ("json".data, "json".data), ("yaml".data, "yaml".data),
   ("xml".data, "xml".data), ("markdown".data, "markdown".data),
   ("mermaid".data, "mermaid".data)]

/-- `mermaid_keywords` of `_block_to_text`. -/
def mermaidKeywords : List (List Char) :=
  ["graph".data, "flowchart".data, "sequenceDiagram".data, "classDiagram".data,
   "stateDiagram".data, "stateDiagram-v2".data, "entityRelationshipDiagram".data,
   "userJourney".data, "gantt".data, "pie".data, "mindmap".data, "timeline".data,
   "gitgraph".data, "erDiagram".data, "journey".data, "pieChart".data,
   "requirementDiagram".data, "git".data, "subgraph".data,
   "end[".data, "end;".data]

/-- `_create_paragraph_block`: the payload is truncated to 2000 characters. -/
def createParagraphBlock (text : List Char) : Block :=
  Block.paragraph (text.take 2000)

/-- `flush_paragraph`: join the accumulated lines with single spaces and emit
one paragraph block, if the accumulator is non-empty. -/
def flushParagraph (para : List (List Char)) : List Block :=
  if para.isEmpty then [] else [createParagraphBlock (joinSep [' '] para)]

/-- One round of the punctuation rule of `_split_code_at_boundaries` for a
single punctuation character `p` (step 3 of the split-point search). -/
def punctTry (w : List Char) (m : Nat) (p : Char) : Option Nat :=
  match rfindSub [p] w with
  | none => none
  | some k =>
    if 20 * k > 17 * m then
      if k + 1 < w.length then
        let c := w.getD (k + 1) ' '
        if c.isAlphanum || pyIsSpace c then some (k + 1) else none
      else none
    else none

/-- Steps 3 of the split-point search: try `'.'`, then `':'`, then `'!'`. -/
def punctSplit (w : List Char) (m : Nat) : Option Nat :=
  match punctTry w m '.' with
  | some p => some p
  | none =>
    match punctTry w m ':' with
    | some p => some p
    | none => punctTry w m '!'

/-- Steps 3–4 of the split-point search and the hard cut, reached when
neither the double-newline nor the semicolon rule fires. -/
def splitPosTail (w : List Char) (m : Nat) : Nat :=
  match punctSplit w m with
  | some p => p
  | none =>
    match rfindSub ['\n'] w with
    | some k => if 10 * k > 9 * m then k + 1 else m
    | none => m

/-- Steps 2–4 of the split-point search and the hard cut, reached when the
double-newline rule does not fire. -/
def splitPosAfterDnl (w : List Char) (m : Nat) : Nat :=
  match rfindSub [';'] w with
  | some k =>
    if 20 * k > 17 * m then k + 1
    else splitPosTail w m
  | none => splitPosTail w m

/-- The split-point computation of one iteration of
`_split_code_at_boundaries` on the window `w` (the first `m` characters of
the remaining text).  Float thresholds are modelled as exact rationals. -/
def splitPos (w : List Char) (m : Nat) : Nat :=
  match rfindSub dnl w with
  | some k =>
    if 5 * k > 4 * m then k + 2
    else splitPosAfterDnl w m
  | none => splitPosAfterDnl w m

/-- The chunking loop of `_split_code_at_boundaries`, with explicit fuel for
structural recursion.  For `m ≥ 1` every iteration consumes at least one
character, so fuel `remaining.length` never runs out; for `m = 0` the Python
loop would not terminate at all. -/
def splitGo : Nat → List Char → Nat → List (List Char)
  | 0, r, _ => if r.length = 0 then [] else [r]
  | fuel + 1, r, m =>
    if m < r.length then
      let pos := splitPos (r.take m) m
      r.take pos :: splitGo fuel (r.drop pos) m
    else if r.length = 0 then [] else [r]

/-- `_split_code_at_boundaries(code_text, max_length)`. -/
def splitCodeAtBoundaries (t : List Char) (m : Nat) : List (List Char) :=
  if t.length ≤ m then [t] else splitGo t.length t m

/-- The line loop of `_convert_to_blocks`, with explicit fuel for structural
recursion (each iteration consumes at least one line, so fuel
`lines.length` suffices). -/
def convertLoop : Nat → List (List Char) → List (List Char) → List Block
  | 0, _, para => flushParagraph para
  | fuel + 1, lines, para =>
    match lines with
    | [] => flushParagraph para
    | l :: rest =>
      let line := pyRstrip l
      if line.isEmpty then
        flushParagraph para ++ convertLoop fuel rest []
      else if "```".data.isPrefixOf line then
        let lang0 := pyStrip (line.drop 3)
        let lang := if lang0.isEmpty then "plain text".data else lang0
        let codeLines := rest.takeWhile (fun x => !("```".data.isPrefixOf x))
        let rest2 := (rest.dropWhile (fun x => !("```".data.isPrefixOf x))).drop 1
        let codeText := joinSep ['\n'] codeLines
        let newBlocks :=
          if asciiLower lang = "mermaid".data then
            [Block.code "javascript".data codeText]
          else
            let tag := (dictGet (asciiLower lang) notionLangs).getD "plain text".data
            if codeText.length ≤ 2000 then [Block.code tag codeText]
            else (splitCodeAtBoundaries codeText 2000).map (fun chunk => Block.code tag chunk)
        flushParagraph para ++ newBlocks ++ convertLoop fuel rest2 []
      else if "# ".data.isPrefixOf line then
        flushParagraph para ++ [Block.heading1 (pyStrip (line.drop 2))] ++ convertLoop fuel rest []
      else if "## ".data.isPrefixOf line then
        flushParagraph para ++ [Block.heading2 (pyStrip (line.drop 3))] ++ convertLoop fuel rest []
      else if "### ".data.isPrefixOf line then
        flushParagraph para ++ [Block.heading3 (pyStrip (line.drop 4))] ++ convertLoop fuel rest []
      else if "- ".data.isPrefixOf line || "* ".data.isPrefixOf line then
        flushParagraph para ++ [Block.bulleted (pyStrip (line.drop 2))] ++ convertLoop fuel rest []
      else if (line.headD ' ').isDigit && ". ".data.isPrefixOf line then
        flushParagraph para ++ [Block.numbered (pyStrip (line.drop 2))] ++ convertLoop fuel rest []
      else if "> ".data.isPrefixOf line then
        flushParagraph para ++ [Block.quote (pyStrip (line.drop 2))] ++ convertLoop fuel rest []
      else
        convertLoop fuel rest (para ++ [line])

/-- `_convert_to_blocks(content)`: unescape, split into lines, run the loop. -/
def convertToBlocks (content : List Char) : List Block :=
  let c := unescape content
  let ls := pySplitLines c
  convertLoop ls.length ls []

/-- A fenced Markdown code block with label `label` and body `body`. -/
def fenceMd (label body : List Char) : List Char :=
  "```".data ++ label ++ '\n' :: (body ++ '\n' :: "```".data)

/-- The two halves of the Mermaid rendering-notice boilerplate that
`_block_to_text` filters out of paragraph blocks. -/
def noticeA : List Char := "Mermaid 다이어그램".data

/-- Second half of the boilerplate filter. -/
def noticeB : List Char := "블로그에서 자동으로 다이어그램으로 렌더링됩니다".data

/-- `_block_to_text(block)`.  `Except.error ()` models the `NameError`
raised when the function evaluates `re.search` (the module never imports
`re`); every other path returns the produced Markdown fragment. -/
def blockToText : Block → Except Unit (List Char)
  | Block.code language content =>
    let langLower := asciiLower language
    if langLower = "javascript".data then
      let stripped := pyStrip content
      let firstLine :=
        if stripped.isEmpty then ([] : List Char)
        else pyStrip ((pySplitLines stripped).headD [])
      if mermaidKeywords.any
          (fun k => k.isPrefixOf firstLine || (k ++ [' ']).isPrefixOf firstLine) then
        Except.ok (fenceMd "mermaid".data content)
      else if pyIn "subgraph".data (asciiLower stripped) then
        Except.ok (fenceMd "mermaid".data content)
      else
        Except.error ()
    else
      Except.ok (fenceMd ((dictGet language langMap).getD "text".data) content)
  | Block.heading1 t => Except.ok ("# ".data ++ t)
  | Block.heading2 t => Except.ok ("## ".data ++ t)
  | Block.heading3 t => Except.ok ("### ".data ++ t)
  | Block.bulleted t => Except.ok ("- ".data ++ t)
  | Block.numbered t => Except.ok ("1. ".data ++ t)
  | Block.quote t => Except.ok ("> ".data ++ t)
  | Block.paragraph t =>
    if pyIn noticeA t && pyIn noticeB t then Except.ok [] else Except.ok t

/-- Render each block of a sequence (propagating the first failure). -/
def blocksToTextList : List Block → Except Unit (List (List Char))
  | [] => Except.ok []
  | b :: t =>
    match blockToText b with
    | Except.error e => Except.error e
    | Except.ok frag =>
      match blocksToTextList t with
      | Except.error e => Except.error e
      | Except.ok rest => Except.ok (frag :: rest)

/-- `get_page_content`'s rendering of a block sequence:
`"\n\n".join(self._block_to_text(b) for b in blocks)`. -/
def renderBlocks (bs : List Block) : Except Unit (List Char) :=
  match blocksToTextList bs with
  | Except.error e => Except.error e
  | Except.ok frags => Except.ok (joinSep "\n\n".data frags)

/-- The composite label canonicalization of one round trip: fence label →
storage tag (compile-time allow-list) → Markdown fence label (render-time
table). -/
def canonLabel (label : List Char) : List Char :=
  (dictGet ((dictGet (asciiLower label) notionLangs).getD "plain text".data) langMap).getD
    "text".data

/-- Payload of a code block (empty for other kinds). -/
def codeBody : Block → List Char
  | Block.code _ t => t
  | _ => []

/-- The payload-size discipline `_convert_to_blocks` actually guarantees:
paragraph payloads are at most 2000 characters, and so are code payloads
whose stored language tag is not the `"javascript"` tag used for diagram
payloads. -/
def GoodBlock (b : Block) : Prop :=
  (∀ t, b = Block.paragraph t → t.length ≤ 2000) ∧
  (∀ lg t, b = Block.code lg t → lg ≠ "javascript".data → t.length ≤ 2000)

end NotionPublisher

deriving instance DecidableEq for Except

namespace NotionPublisher

/-! ### Helper lemmas about the string primitives -/

theorem escSeq_false {a b : Char} (h : ¬(a = '\\' ∧ (b = 'n' ∨ b = '"' ∨ b = '\\'))) :
    (a = '\\' && (b = 'n' || b = '"' || b = '\\')) = false := by
  by_cases h1 : a = '\\'
  · have h2 : ¬(b = 'n' ∨ b = '"' ∨ b = '\\') := fun hb => h ⟨h1, hb⟩
    simp only [Bool.and_eq_false_iff, Bool.or_eq_false_iff, decide_eq_false_iff_not]
    right
    exact ⟨⟨fun hb => h2 (Or.inl hb), fun hb => h2 (Or.inr (Or.inl hb))⟩,
      fun hb => h2 (Or.inr (Or.inr hb))⟩
  · simp [h1]

theorem escFree_cons_cons {a b : Char} (s : List Char)
    (h : ¬(a = '\\' ∧ (b = 'n' ∨ b = '"' ∨ b = '\\'))) :
    escFree (a :: b :: s) = escFree (b :: s) := by
  simp only [escFree, escSeq_false h, Bool.false_eq_true, if_false]

theorem escFree_bad {b : Char} (s : List Char) (hb : b = 'n' ∨ b = '"' ∨ b = '\\') :
    escFree ('\\' :: b :: s) = false := by
  rcases hb with h | h | h <;> subst h <;> simp [escFree]

theorem escFree_cons {a : Char} {s : List Char} (h : a ≠ '\\') :
    escFree (a :: s) = escFree s := by
  cases s with
  | nil => simp [escFree]
  | cons b rest => exact escFree_cons_cons rest (fun hc => h hc.1)

theorem escFree_of_not_bs {s : List Char} (h : '\\' ∉ s) : escFree s = true := by
  induction s with
  | nil => rfl
  | cons a t ih =>
    have ha : a ≠ '\\' := fun hc => h (hc ▸ List.mem_cons_self a t)
    rw [escFree_cons ha]
    exact ih (fun hm => h (List.mem_cons_of_mem a hm))

theorem escFree_tail {a : Char} {s : List Char} (h : escFree (a :: s) = true) :
    escFree s = true := by
  cases s with
  | nil => rfl
  | cons b rest =>
    by_cases hbad : a = '\\' ∧ (b = 'n' ∨ b = '"' ∨ b = '\\')
    · rw [hbad.1] at h
      rw [escFree_bad rest hbad.2] at h
      exact absurd h (by simp)
    · rwa [escFree_cons_cons rest hbad] at h

theorem escFree_not_bad {b : Char} {s : List Char} (h : escFree ('\\' :: b :: s) = true) :
    ¬(b = 'n' ∨ b = '"' ∨ b = '\\') := by
  intro hb
  rw [escFree_bad s hb] at h
  exact absurd h (by simp)

theorem escFree_append {a b : List Char} (ha : escFree a = true) (hb : escFree b = true)
    (hhead : ∀ c, b.head? = some c → (c = 'n' ∨ c = '"' ∨ c = '\\') → False) :
    escFree (a ++ b) = true := by
  induction a with
  | nil => simpa using hb
  | cons x a' ih =>
    by_cases hx : x = '\\'
    · subst hx
      cases a' with
      | nil =>
        cases b with
        | nil => rfl
        | cons c b' =>
          have hc : ¬(c = 'n' ∨ c = '"' ∨ c = '\\') := fun h2 => hhead c rfl h2
          show escFree ('\\' :: c :: b') = true
          rw [escFree_cons_cons b' (fun h2 => hc h2.2)]
          exact hb
      | cons y a'' =>
        have hcond : ¬(y = 'n' ∨ y = '"' ∨ y = '\\') := escFree_not_bad ha
        have ha' : escFree (y :: a'') = true := by
          rwa [escFree_cons_cons a'' (fun h2 => hcond h2.2)] at ha
        show escFree ('\\' :: y :: (a'' ++ b)) = true
        rw [escFree_cons_cons (a'' ++ b) (fun h2 => hcond h2.2)]
        exact ih ha'
    · have ha' : escFree a' = true := by rwa [escFree_cons hx] at ha
      rw [List.cons_append, escFree_cons hx]
      exact ih ha'

theorem escFree_append_left {a b : List Char} (ha : '\\' ∉ a) (hb : escFree b = true) :
    escFree (a ++ b) = true := by
  induction a with
  | nil => simpa using hb
  | cons x a' ih =>
    have hx : x ≠ '\\' := fun hc => ha (hc ▸ List.mem_cons_self x a')
    rw [List.cons_append, escFree_cons hx]
    exact ih (fun hm => ha (List.mem_cons_of_mem x hm))

theorem pyReplace2_eq_self {p₂ : Char} {rep s : List Char}
    (hp : p₂ = 'n' ∨ p₂ = '"' ∨ p₂ = '\\') (h : escFree s = true) :
    pyReplace2 '\\' p₂ rep s = s := by
  induction s with
  | nil => rfl
  | cons a t ih =>
    cases t with
    | nil => rfl
    | cons b rest =>
      have hcond : (a = '\\' && b = p₂) = false := by
        by_cases hab : a = '\\'
        · subst hab
          by_cases hbp : b = p₂
          · subst hbp
            exact absurd h (by rw [escFree_bad rest hp]; simp)
          · simp [hbp]
        · simp [hab]
      have ht : escFree (b :: rest) = true := escFree_tail h
      simp only [pyReplace2, hcond, Bool.false_eq_true, if_false]
      rw [ih ht]

theorem unescape_eq_self {s : List Char} (h : escFree s = true) : unescape s = s := by
  unfold unescape
  rw [pyReplace2_eq_self (by tauto) h, pyReplace2_eq_self (by tauto) h,
    pyReplace2_eq_self (by tauto) h]

theorem pySplitLines_ne_nil (s : List Char) : pySplitLines s ≠ [] := by
  cases s with
  | nil => simp [pySplitLines]
  | cons c rest =>
    simp only [pySplitLines]
    split
    · simp
    · split
      · simp
      · simp

theorem pySplitLines_cons_nl (rest : List Char) :
    pySplitLines ('\n' :: rest) = [] :: pySplitLines rest := by
  simp [pySplitLines]

theorem pySplitLines_cons (c : Char) (rest : List Char) (hc : c ≠ '\n') :
    pySplitLines (c :: rest) =
      match pySplitLines rest with
      | [] => [[c]]
      | l :: ls => (c :: l) :: ls := by
  simp [pySplitLines, hc]

theorem pySplitLines_append (a b : List Char) :
    pySplitLines (a ++ '\n' :: b) = pySplitLines a ++ pySplitLines b := by
  induction a with
  | nil => simp [pySplitLines_cons_nl, pySplitLines]
  | cons c a' ih =>
    by_cases hc : c = '\n'
    · subst hc
      rw [List.cons_append, pySplitLines_cons_nl, pySplitLines_cons_nl, ih, List.cons_append]
    · rw [List.cons_append, pySplitLines_cons c _ hc, pySplitLines_cons c _ hc, ih]
      cases hsa : pySplitLines a' with
      | nil => exact absurd hsa (pySplitLines_ne_nil a')
      | cons l ls => simp

theorem pySplitLines_no_nl {s : List Char} (h : '\n' ∉ s) : pySplitLines s = [s] := by
  induction s with
  | nil => rfl
  | cons c rest ih =>
    have hc : c ≠ '\n' := fun hcc => h (hcc ▸ List.mem_cons_self c rest)
    have hr : '\n' ∉ rest := fun hm => h (List.mem_cons_of_mem c hm)
    rw [pySplitLines_cons c rest hc, ih hr]

theorem joinSep_pySplitLines (s : List Char) : joinSep ['\n'] (pySplitLines s) = s := by
  induction s with
  | nil => rfl
  | cons c rest ih =>
    by_cases hc : c = '\n'
    · subst hc
      rw [pySplitLines_cons_nl]
      cases hsr : pySplitLines rest with
      | nil => exact absurd hsr (pySplitLines_ne_nil rest)
      | cons l ls =>
        rw [hsr] at ih
        simpa [joinSep] using ih
    · rw [pySplitLines_cons c rest hc]
      cases hsr : pySplitLines rest with
      | nil => exact absurd hsr (pySplitLines_ne_nil rest)
      | cons l ls =>
        rw [hsr] at ih
        cases ls with
        | nil =>
          simp only [joinSep] at ih ⊢
          rw [ih]
        | cons l2 ls2 =>
          simp only [joinSep, List.cons_append, List.append_assoc] at ih ⊢
          rw [ih]

/-! ### Strip and lower-casing lemmas -/

theorem pyLstrip_length_le (s : List Char) : (pyLstrip s).length ≤ s.length :=
  (List.dropWhile_suffix pyIsSpace).length_le

theorem pyRstrip_length_le (s : List Char) : (pyRstrip s).length ≤ s.length := by
  unfold pyRstrip
  rw [List.length_reverse]
  calc (s.reverse.dropWhile pyIsSpace).length ≤ s.reverse.length :=
      (List.dropWhile_suffix pyIsSpace).length_le
    _ = s.length := List.length_reverse s

theorem pyLstrip_eq_of_length {s : List Char} (h : (pyLstrip s).length = s.length) :
    pyLstrip s = s :=
  (List.dropWhile_suffix pyIsSpace).eq_of_length h

theorem pyRstrip_eq_of_length {s : List Char} (h : (pyRstrip s).length = s.length) :
    pyRstrip s = s := by
  unfold pyRstrip at h ⊢
  have h2 : (s.reverse.dropWhile pyIsSpace).length = s.reverse.length := by
    rw [List.length_reverse] at h ⊢
    simpa using h
  rw [(List.dropWhile_suffix pyIsSpace).eq_of_length h2, List.reverse_reverse]

theorem pyStrip_eq_of_length {s : List Char} (h : (pyStrip s).length = s.length) :
    pyStrip s = s := by
  unfold pyStrip at h ⊢
  have h1 : (pyLstrip s).length = s.length := by
    have := pyRstrip_length_le (pyLstrip s)
    have := pyLstrip_length_le s
    omega
  rw [pyLstrip_eq_of_length h1] at h ⊢
  exact pyRstrip_eq_of_length h

theorem upperLower_vals_not_space : ∀ q ∈ upperLower, pyIsSpace q.2 = false := by decide

theorem upperLower_keys_not_space : ∀ q ∈ upperLower, pyIsSpace q.1 = false := by decide

theorem pyIsSpace_lowerChar (c : Char) : pyIsSpace (lowerChar c) = pyIsSpace c := by
  unfold lowerChar
  cases hf : upperLower.find? (fun p => p.1 = c) with
  | none => rfl
  | some q =>
    have hmem : q ∈ upperLower := List.mem_of_find?_eq_some hf
    have hcond := List.find?_some hf
    have hc : q.1 = c := by simpa using hcond
    rw [upperLower_vals_not_space q hmem, ← hc, upperLower_keys_not_space q hmem]

theorem lowerChar_fixed_of_not_val {c x : Char} (hx : ∀ p ∈ upperLower, p.2 ≠ x)
    (h : lowerChar c = x) : c = x := by
  unfold lowerChar at h
  cases hf : upperLower.find? (fun p => p.1 = c) with
  | none => rwa [hf] at h
  | some p =>
    rw [hf] at h
    exact absurd h (hx p (List.mem_of_find?_eq_some hf))

theorem lowerChar_nl {c : Char} (h : lowerChar c = '\n') : c = '\n' :=
  lowerChar_fixed_of_not_val (by decide) h

theorem lowerChar_bs {c : Char} (h : lowerChar c = '\\') : c = '\\' :=
  lowerChar_fixed_of_not_val (by decide) h

theorem asciiLower_append (a b : List Char) :
    asciiLower (a ++ b) = asciiLower a ++ asciiLower b := List.map_append lowerChar a b

theorem asciiLower_length (s : List Char) : (asciiLower s).length = s.length :=
  List.length_map s lowerChar

theorem pyLstrip_asciiLower (s : List Char) :
    pyLstrip (asciiLower s) = asciiLower (pyLstrip s) := by
  unfold pyLstrip asciiLower
  rw [List.dropWhile_map]
  have : pyIsSpace ∘ lowerChar = pyIsSpace := funext pyIsSpace_lowerChar
  rw [this]

theorem pyRstrip_asciiLower (s : List Char) :
    pyRstrip (asciiLower s) = asciiLower (pyRstrip s) := by
  unfold pyRstrip asciiLower
  rw [← List.map_reverse, List.dropWhile_map]
  have : pyIsSpace ∘ lowerChar = pyIsSpace := funext pyIsSpace_lowerChar
  rw [this, List.map_reverse]

theorem pyStrip_asciiLower (s : List Char) :
    pyStrip (asciiLower s) = asciiLower (pyStrip s) := by
  unfold pyStrip
  rw [pyLstrip_asciiLower, pyRstrip_asciiLower]

theorem pyStrip_eq_self_of_lower {s : List Char}
    (h : pyStrip (asciiLower s) = asciiLower s) : pyStrip s = s := by
  apply pyStrip_eq_of_length
  have := congrArg List.length h
  rw [pyStrip_asciiLower, asciiLower_length, asciiLower_length] at this
  exact this

theorem pyRstrip_eq_self_of_lower {s : List Char}
    (h : pyRstrip (asciiLower s) = asciiLower s) : pyRstrip s = s := by
  apply pyRstrip_eq_of_length
  have := congrArg List.length h
  rw [pyRstrip_asciiLower, asciiLower_length, asciiLower_length] at this
  exact this

/-! ### Dictionary lookup lemmas -/

theorem dictGet_mem {k v : List Char} {l : List (List Char × List Char)}
    (h : dictGet k l = some v) : (k, v) ∈ l := by
  induction l with
  | nil => exact absurd h (by simp [dictGet])
  | cons p t ih =>
    obtain ⟨k', v'⟩ := p
    simp only [dictGet] at h
    split at h
    · rename_i heq
      cases h
      subst heq
      exact List.mem_cons_self _ _
    · exact List.mem_cons_of_mem _ (ih h)

/-! ### takeWhile / dropWhile on a list ending in the closing fence -/

theorem takeWhile_append_last {p : List Char → Bool} {A : List (List Char)} {f : List Char}
    (hA : ∀ x ∈ A, p x = true) (hf : p f = false) :
    (A ++ [f]).takeWhile p = A := by
  induction A with
  | nil => simp [List.takeWhile, hf]
  | cons x A' ih =>
    have hx : p x = true := hA x (List.mem_cons_self x A')
    simp only [List.cons_append, List.takeWhile_cons, hx, if_true]
    rw [ih (fun y hy => hA y (List.mem_cons_of_mem x hy))]

theorem dropWhile_append_last {p : List Char → Bool} {A : List (List Char)} {f : List Char}
    (hA : ∀ x ∈ A, p x = true) (hf : p f = false) :
    (A ++ [f]).dropWhile p = [f] := by
  induction A with
  | nil => simp [List.dropWhile, hf]
  | cons x A' ih =>
    have hx : p x = true := hA x (List.mem_cons_self x A')
    simp only [List.cons_append, List.dropWhile_cons, hx, if_true]
    exact ih (fun y hy => hA y (List.mem_cons_of_mem x hy))

/-! ### rfindSub lemmas -/

theorem rfindSub_isPrefixOf {pat s : List Char} {k : Nat} (h : rfindSub pat s = some k) :
    pat.isPrefixOf (s.drop k) = true := by
  induction s generalizing k with
  | nil =>
    simp only [rfindSub] at h
    by_cases hp : pat.isPrefixOf ([] : List Char) = true
    · rw [if_pos hp] at h
      cases h
      simpa using hp
    · rw [if_neg hp] at h
      exact absurd h (by simp)
  | cons c rest ih =>
    simp only [rfindSub] at h
    cases hr : rfindSub pat rest with
    | some k' =>
      rw [hr] at h
      cases h
      simpa using ih hr
    | none =>
      rw [hr] at h
      by_cases hp : pat.isPrefixOf (c :: rest) = true
      · rw [if_pos hp] at h
        cases h
        simpa using hp
      · rw [if_neg hp] at h
        exact absurd h (by simp)

theorem rfindSub_bound {pat s : List Char} {k : Nat} (h : rfindSub pat s = some k)
    (hne : pat ≠ []) : k + pat.length ≤ s.length := by
  have hp := rfindSub_isPrefixOf h
  rw [List.isPrefixOf_iff_prefix] at hp
  have hlen := hp.length_le
  rw [List.length_drop] at hlen
  have : 1 ≤ pat.length := List.length_pos.mpr hne
  omega

theorem rfindSub_replicate {pat : List Char} {c0 c : Char} {p : List Char} {n : Nat}
    (hpat : pat = c0 :: p) (hne : c0 ≠ c) : rfindSub pat (List.replicate n c) = none := by
  subst hpat
  induction n with
  | zero => simp [rfindSub]
  | succ n ih =>
    rw [List.replicate_succ]
    simp only [rfindSub, ih]
    rw [if_neg]
    simp only [List.isPrefixOf, Bool.and_eq_true, beq_iff_eq]
    intro hc
    exact hne hc.1

/-! ### concatAll lemmas -/

theorem concatAll_append (a b : List (List Char)) :
    concatAll (a ++ b) = concatAll a ++ concatAll b := by
  induction a with
  | nil => rfl
  | cons x t ih => simp [concatAll, ih]

/-! ### Split-position bounds -/

theorem punctTry_spec {w : List Char} {m q : Nat} {p : Char}
    (h : punctTry w m p = some q) : 1 ≤ q ∧ q < w.length := by
  unfold punctTry at h
  cases hr : rfindSub [p] w with
  | none => rw [hr] at h; exact absurd h (by simp)
  | some k =>
    rw [hr] at h
    dsimp only at h
    by_cases h1 : 20 * k > 17 * m
    · rw [if_pos h1] at h
      by_cases h2 : k + 1 < w.length
      · rw [if_pos h2] at h
        by_cases h3 : ((w.getD (k + 1) ' ').isAlphanum || pyIsSpace (w.getD (k + 1) ' ')) = true
        · rw [if_pos h3] at h
          cases h
          omega
        · rw [if_neg h3] at h
          exact absurd h (by simp)
      · rw [if_neg h2] at h
        exact absurd h (by simp)
    · rw [if_neg h1] at h
      exact absurd h (by simp)

theorem punctSplit_spec {w : List Char} {m q : Nat}
    (h : punctSplit w m = some q) : 1 ≤ q ∧ q < w.length := by
  unfold punctSplit at h
  cases h1 : punctTry w m '.' with
  | some p1 =>
    rw [h1] at h
    cases h
    exact punctTry_spec h1
  | none =>
    rw [h1] at h
    cases h2 : punctTry w m ':' with
    | some p2 =>
      rw [h2] at h
      cases h
      exact punctTry_spec h2
    | none =>
      rw [h2] at h
      exact punctTry_spec h

theorem splitPosTail_le {w : List Char} {m : Nat} (hw : w.length = m) :
    splitPosTail w m ≤ m := by
  unfold splitPosTail
  cases hp : punctSplit w m with
  | some q =>
    simp only [hp]
    have := punctSplit_spec hp
    omega
  | none =>
    simp only [hp]
    cases hn : rfindSub ['\n'] w with
    | some k =>
      simp only [hn]
      have := rfindSub_bound hn (by simp)
      simp only [List.length_cons, List.length_nil] at this
      by_cases hg : 10 * k > 9 * m
      · rw [if_pos hg]
        omega
      · rw [if_neg hg]
    | none =>
      simp only [hn]
      exact Nat.le_refl m

theorem splitPosTail_pos {w : List Char} {m : Nat} (hm : 1 ≤ m) :
    1 ≤ splitPosTail w m := by
  unfold splitPosTail
  cases hp : punctSplit w m with
  | some q =>
    simp only [hp]
    exact (punctSplit_spec hp).1
  | none =>
    simp only [hp]
    cases hn : rfindSub ['\n'] w with
    | some k =>
      simp only [hn]
      by_cases hg : 10 * k > 9 * m
      · rw [if_pos hg]; omega
      · rw [if_neg hg]; exact hm
    | none => simp only [hn]; exact hm

theorem splitPosAfterDnl_le {w : List Char} {m : Nat} (hw : w.length = m) :
    splitPosAfterDnl w m ≤ m := by
  unfold splitPosAfterDnl
  cases hs : rfindSub [';'] w with
  | some k =>
    simp only [hs]
    have := rfindSub_bound hs (by simp)
    simp only [List.length_cons, List.length_nil] at this
    by_cases hg : 20 * k > 17 * m
    · rw [if_pos hg]
      omega
    · rw [if_neg hg]
      exact splitPosTail_le hw
  | none => simp only [hs]; exact splitPosTail_le hw

theorem splitPosAfterDnl_pos {w : List Char} {m : Nat} (hm : 1 ≤ m) :
    1 ≤ splitPosAfterDnl w m := by
  unfold splitPosAfterDnl
  cases hs : rfindSub [';'] w with
  | some k =>
    simp only [hs]
    by_cases hg : 20 * k > 17 * m
    · rw [if_pos hg]; omega
    · rw [if_neg hg]; exact splitPosTail_pos hm
  | none => simp only [hs]; exact splitPosTail_pos hm

theorem splitPos_le {w : List Char} {m : Nat} (hw : w.length = m) :
    splitPos w m ≤ m := by
  unfold splitPos
  cases hd : rfindSub dnl w with
  | some k =>
    simp only [hd]
    have := rfindSub_bound hd (by simp [dnl])
    simp only [dnl, List.length_cons, List.length_nil] at this
    by_cases hg : 5 * k > 4 * m
    · rw [if_pos hg]
      omega
    · rw [if_neg hg]
      exact splitPosAfterDnl_le hw
  | none => simp only [hd]; exact splitPosAfterDnl_le hw

theorem splitPos_pos {w : List Char} {m : Nat} (hm : 1 ≤ m) :
    1 ≤ splitPos w m := by
  unfold splitPos
  cases hd : rfindSub dnl w with
  | some k =>
    simp only [hd]
    by_cases hg : 5 * k > 4 * m
    · rw [if_pos hg]; omega
    · rw [if_neg hg]; exact splitPosAfterDnl_pos hm
  | none => simp only [hd]; exact splitPosAfterDnl_pos hm

/-! ### Chunking-loop lemmas -/

theorem splitGo_concat {m : Nat} (hm : 1 ≤ m) :
    ∀ fuel (r : List Char), r.length ≤ fuel → concatAll (splitGo fuel r m) = r := by
  intro fuel
  induction fuel with
  | zero =>
    intro r hr
    have : r = [] := List.eq_nil_of_length_eq_zero (Nat.le_zero.mp hr)
    subst this
    simp [splitGo, concatAll]
  | succ fuel ih =>
    intro r hr
    by_cases hlen : m < r.length
    · have hwin : (r.take m).length = m := by
        rw [List.length_take]
        omega
      have hpos : 1 ≤ splitPos (r.take m) m := splitPos_pos hm
      simp only [splitGo, if_pos hlen, concatAll]
      rw [ih (r.drop (splitPos (r.take m) m)) (by rw [List.length_drop]; omega)]
      exact List.take_append_drop _ r
    · by_cases hnil : r.length = 0
      · have hr0 : r = [] := List.eq_nil_of_length_eq_zero hnil
        subst hr0
        simp [splitGo, concatAll]
      · simp [splitGo, if_neg hlen, hnil, concatAll]

theorem splitGo_chunk_le {m : Nat} (hm : 1 ≤ m) :
    ∀ fuel (r : List Char), r.length ≤ fuel →
      ∀ c ∈ splitGo fuel r m, c.length ≤ m := by
  intro fuel
  induction fuel with
  | zero =>
    intro r hr c hc
    have : r = [] := List.eq_nil_of_length_eq_zero (Nat.le_zero.mp hr)
    subst this
    simp [splitGo] at hc
  | succ fuel ih =>
    intro r hr c hc
    by_cases hlen : m < r.length
    · have hwin : (r.take m).length = m := by
        rw [List.length_take]
        omega
      have hpos : 1 ≤ splitPos (r.take m) m := splitPos_pos hm
      have hle : splitPos (r.take m) m ≤ m := splitPos_le hwin
      simp only [splitGo, if_pos hlen, List.mem_cons] at hc
      rcases hc with hc | hc
      · subst hc
        rw [List.length_take]
        omega
      · exact ih (r.drop (splitPos (r.take m) m)) (by rw [List.length_drop]; omega) c hc
    · by_cases hnil : r.length = 0
      · simp [splitGo, if_neg hlen, hnil] at hc
      · simp only [splitGo, if_neg hlen, hnil, if_false, if_neg hnil, List.mem_singleton] at hc
        subst hc
        omega

theorem splitGo_chunk_ne_nil {m : Nat} (hm : 1 ≤ m) :
    ∀ fuel (r : List Char), r.length ≤ fuel →
      ∀ c ∈ splitGo fuel r m, c ≠ [] := by
  intro fuel
  induction fuel with
  | zero =>
    intro r hr c hc
    have : r = [] := List.eq_nil_of_length_eq_zero (Nat.le_zero.mp hr)
    subst this
    simp [splitGo] at hc
  | succ fuel ih =>
    intro r hr c hc
    by_cases hlen : m < r.length
    · have hwin : (r.take m).length = m := by
        rw [List.length_take]
        omega
      have hpos : 1 ≤ splitPos (r.take m) m := splitPos_pos hm
      simp only [splitGo, if_pos hlen, List.mem_cons] at hc
      rcases hc with hc | hc
      · subst hc
        intro hnil
        have := congrArg List.length hnil
        rw [List.length_take] at this
        simp only [List.length_nil] at this
        omega
      · exact ih (r.drop (splitPos (r.take m) m)) (by rw [List.length_drop]; omega) c hc
    · by_cases hnil : r.length = 0
      · simp [splitGo, if_neg hlen, hnil] at hc
      · simp only [splitGo, if_neg hlen, hnil, if_false, if_neg hnil, List.mem_singleton] at hc
        subst hc
        exact fun h => hnil (by rw [h]; rfl)

theorem splitCode_concat {t : List Char} {m : Nat} (hm : 1 ≤ m) :
    concatAll (splitCodeAtBoundaries t m) = t := by
  unfold splitCodeAtBoundaries
  by_cases h : t.length ≤ m
  · simp [h, concatAll]
  · rw [if_neg h]
    exact splitGo_concat hm t.length t (Nat.le_refl _)

theorem splitCode_chunk_le {t : List Char} {m : Nat} (hm : 1 ≤ m) :
    ∀ c ∈ splitCodeAtBoundaries t m, c.length ≤ m := by
  unfold splitCodeAtBoundaries
  by_cases h : t.length ≤ m
  · simp only [if_pos h, List.mem_singleton]
    intro c hc
    subst hc
    exact h
  · rw [if_neg h]
    exact splitGo_chunk_le hm t.length t (Nat.le_refl _)

theorem splitCode_chunk_ne_nil {t : List Char} {m : Nat} (hm : 1 ≤ m) (ht : t ≠ []) :
    ∀ c ∈ splitCodeAtBoundaries t m, c ≠ [] := by
  unfold splitCodeAtBoundaries
  by_cases h : t.length ≤ m
  · simp only [if_pos h, List.mem_singleton]
    intro c hc
    subst hc
    exact ht
  · rw [if_neg h]
    exact splitGo_chunk_ne_nil hm t.length t (Nat.le_refl _)

/-! ### The compilation of a single fenced code block -/

theorem convertLoop_nil (fuel : Nat) (para : List (List Char)) :
    convertLoop fuel [] para = flushParagraph para := by
  cases fuel <;> rfl

theorem escFree_fenceMd {Lb T : List Char} (hbs : '\\' ∉ Lb) (hesc : escFree T = true) :
    escFree (fenceMd Lb T) = true := by
  have hA : '\\' ∉ ("```".data ++ Lb) := by
    intro hm
    rcases List.mem_append.mp hm with h | h
    · exact absurd h (by decide)
    · exact hbs h
  have hB : escFree ('\n' :: (T ++ '\n' :: "```".data)) = true := by
    rw [escFree_cons (by decide)]
    apply escFree_append hesc (by decide)
    intro c hc hbad
    have hcn : '\n' = c := by simpa using hc
    subst hcn
    rcases hbad with h | h | h <;> exact absurd h (by decide)
  unfold fenceMd
  exact escFree_append_left hA hB

theorem pySplitLines_fenceMd {Lb T : List Char} (hnl : '\n' ∉ Lb) :
    pySplitLines (fenceMd Lb T) =
      ("```".data ++ Lb) :: (pySplitLines T ++ ["```".data]) := by
  have hAnl : '\n' ∉ ("```".data ++ Lb) := by
    intro hm
    rcases List.mem_append.mp hm with h | h
    · exact absurd h (by decide)
    · exact hnl h
  unfold fenceMd
  rw [pySplitLines_append, pySplitLines_append,
    pySplitLines_no_nl hAnl, pySplitLines_no_nl (by decide : '\n' ∉ "```".data)]
  simp

theorem convertLoop_fence (Lb T : List Char) (hne : Lb ≠ [])
    (hstrip : pyStrip Lb = Lb)
    (hrs : pyRstrip ("```".data ++ Lb) = "```".data ++ Lb)
    (hfence : ∀ l ∈ pySplitLines T, "```".data.isPrefixOf l = false) :
    convertLoop ((pySplitLines T ++ ["```".data]).length + 1)
      (("```".data ++ Lb) :: (pySplitLines T ++ ["```".data])) [] =
      (if asciiLower Lb = "mermaid".data then [Block.code "javascript".data T]
       else
         if T.length ≤ 2000 then
           [Block.code ((dictGet (asciiLower Lb) notionLangs).getD "plain text".data) T]
         else
           (splitCodeAtBoundaries T 2000).map
             (fun chunk =>
               Block.code ((dictGet (asciiLower Lb) notionLangs).getD "plain text".data)
                 chunk)) := by
  have hAne : (("```".data ++ Lb).isEmpty) = false := rfl
  have hApre : ("```".data.isPrefixOf ("```".data ++ Lb)) = true := by
    rw [List.isPrefixOf_iff_prefix]
    exact List.prefix_append _ _
  have hdrop : ("```".data ++ Lb).drop 3 = Lb := by
    rw [show (3 : Nat) = "```".data.length from rfl, List.drop_left]
  have hLbEmpty : Lb.isEmpty = false := by
    cases Lb with
    | nil => exact absurd rfl hne
    | cons c t => rfl
  have hpred : ∀ x ∈ pySplitLines T, (!("```".data.isPrefixOf x)) = true := by
    intro x hx
    rw [hfence x hx]
    rfl
  have hpredf : (!("```".data.isPrefixOf "```".data)) = false := by decide
  simp only [convertLoop, hrs, hAne, Bool.false_eq_true, if_false, hApre, if_true, hdrop,
    hstrip, hLbEmpty, takeWhile_append_last hpred hpredf, dropWhile_append_last hpred hpredf,
    List.drop_succ_cons, List.drop_nil, joinSep_pySplitLines, convertLoop_nil]
  simp [flushParagraph]

theorem convertToBlocks_fence (Lb T : List Char)
    (hnl : '\n' ∉ Lb) (hbs : '\\' ∉ Lb) (hne : Lb ≠ [])
    (hstrip : pyStrip Lb = Lb)
    (hrs : pyRstrip ("```".data ++ Lb) = "```".data ++ Lb)
    (hesc : escFree T = true)
    (hfence : ∀ l ∈ pySplitLines T, "```".data.isPrefixOf l = false) :
    convertToBlocks (fenceMd Lb T) =
      (if asciiLower Lb = "mermaid".data then [Block.code "javascript".data T]
       else
         if T.length ≤ 2000 then
           [Block.code ((dictGet (asciiLower Lb) notionLangs).getD "plain text".data) T]
         else
           (splitCodeAtBoundaries T 2000).map
             (fun chunk =>
               Block.code ((dictGet (asciiLower Lb) notionLangs).getD "plain text".data)
                 chunk)) := by
  show convertLoop (pySplitLines (unescape (fenceMd Lb T))).length
      (pySplitLines (unescape (fenceMd Lb T))) [] = _
  rw [unescape_eq_self (escFree_fenceMd hbs hesc), pySplitLines_fenceMd hnl]
  rw [show (("```".data ++ Lb) :: (pySplitLines T ++ ["```".data])).length =
    (pySplitLines T ++ ["```".data]).length + 1 from rfl]
  exact convertLoop_fence Lb T hne hstrip hrs hfence

/-! ### Facts about the language tables and recognized labels -/

theorem notionLangs_keys_no_nl : ∀ p ∈ notionLangs, '\n' ∉ p.1 := by decide

theorem notionLangs_keys_no_bs : ∀ p ∈ notionLangs, '\\' ∉ p.1 := by decide

theorem notionLangs_keys_ne_nil : ∀ p ∈ notionLangs, p.1 ≠ [] := by decide

theorem notionLangs_keys_strip : ∀ p ∈ notionLangs, pyStrip p.1 = p.1 := by decide

theorem notionLangs_keys_rstrip :
    ∀ p ∈ notionLangs, pyRstrip ("```".data ++ p.1) = "```".data ++ p.1 := by decide

theorem notionLangs_vals_lower : ∀ p ∈ notionLangs, asciiLower p.2 = p.2 := by decide

theorem notionLangs_keys_ne_mermaid : ∀ p ∈ notionLangs, p.1 ≠ "mermaid".data := by decide

theorem label_no_nl {L : List Char} (h : '\n' ∉ asciiLower L) : '\n' ∉ L := by
  intro hm
  have : lowerChar '\n' ∈ asciiLower L := List.mem_map_of_mem lowerChar hm
  rw [show lowerChar '\n' = '\n' from by decide] at this
  exact h this

theorem label_no_bs {L : List Char} (h : '\\' ∉ asciiLower L) : '\\' ∉ L := by
  intro hm
  have : lowerChar '\\' ∈ asciiLower L := List.mem_map_of_mem lowerChar hm
  rw [show lowerChar '\\' = '\\' from by decide] at this
  exact h this

theorem label_ne_nil {L : List Char} (h : asciiLower L ≠ []) : L ≠ [] := by
  intro hm
  subst hm
  exact h rfl

theorem label_rstrip_fence {L : List Char}
    (h : pyRstrip ("```".data ++ asciiLower L) = "```".data ++ asciiLower L) :
    pyRstrip ("```".data ++ L) = "```".data ++ L := by
  apply pyRstrip_eq_self_of_lower
  rw [asciiLower_append, show asciiLower "```".data = "```".data from by decide]
  exact h

/-! ### Rendering a single stored code block -/

theorem renderBlocks_singleton {b : Block} {f : List Char}
    (h : blockToText b = Except.ok f) : renderBlocks [b] = Except.ok f := by
  simp [renderBlocks, blocksToTextList, h, joinSep]

theorem blockToText_code_plain {tag T : List Char} (hlow : asciiLower tag = tag)
    (hjs : tag ≠ "javascript".data) :
    blockToText (Block.code tag T) =
      Except.ok (fenceMd ((dictGet tag langMap).getD "text".data) T) := by
  simp only [blockToText, hlow]
  rw [if_neg hjs]

/-! ### Replicate-input helpers -/

theorem isPrefixOf_cons_neq {c d : Char} (p s : List Char) (h : c ≠ d) :
    (c :: p).isPrefixOf (d :: s) = false := by
  rw [← Bool.not_eq_true, List.isPrefixOf_iff_prefix]
  intro hp
  exact h (List.cons_prefix_cons.mp hp).1

theorem dropWhile_replicate_not {p : Char → Bool} {c : Char} (h : p c = false) (n : Nat) :
    (List.replicate n c).dropWhile p = List.replicate n c := by
  cases n with
  | zero => rfl
  | succ k =>
    rw [List.replicate_succ, List.dropWhile_cons, h]
    simp

theorem pyRstrip_replicate (n : Nat) :
    pyRstrip (List.replicate n 'a') = List.replicate n 'a' := by
  unfold pyRstrip
  rw [List.reverse_replicate, dropWhile_replicate_not (by decide) n, List.reverse_replicate]

theorem not_bs_rep_a (n : Nat) : '\\' ∉ List.replicate n 'a' := by
  rw [List.mem_replicate]
  intro hc
  exact absurd hc.2 (by decide)

theorem not_nl_rep_a (n : Nat) : '\n' ∉ List.replicate n 'a' := by
  rw [List.mem_replicate]
  intro hc
  exact absurd hc.2 (by decide)

theorem rep_a_fence_lines (n : Nat) :
    ∀ l ∈ pySplitLines (List.replicate n 'a'), "```".data.isPrefixOf l = false := by
  rw [pySplitLines_no_nl (not_nl_rep_a n)]
  intro l hl
  simp only [List.mem_singleton] at hl
  subst hl
  cases n with
  | zero => rfl
  | succ k =>
    rw [List.replicate_succ]
    exact isPrefixOf_cons_neq _ _ (by decide)

theorem convertToBlocks_replicate (n : Nat) (h : 1 ≤ n) :
    convertToBlocks (List.replicate n 'a') =
      [Block.paragraph (List.replicate (min n 2000) 'a')] := by
  obtain ⟨k, rfl⟩ : ∃ k, n = k + 1 := ⟨n - 1, by omega⟩
  have hesc : escFree (List.replicate (k + 1) 'a') = true :=
    escFree_of_not_bs (not_bs_rep_a (k + 1))
  show convertLoop (pySplitLines (unescape (List.replicate (k + 1) 'a'))).length
      (pySplitLines (unescape (List.replicate (k + 1) 'a'))) [] = _
  rw [unescape_eq_self hesc, pySplitLines_no_nl (not_nl_rep_a (k + 1))]
  rw [show ([List.replicate (k + 1) 'a']).length = 0 + 1 from rfl]
  rw [List.replicate_succ]
  simp only [convertLoop, List.replicate_succ]
  rw [show pyRstrip ('a' :: List.replicate k 'a') = 'a' :: List.replicate k 'a' from by
    have := pyRstrip_replicate (k + 1)
    rwa [List.replicate_succ] at this]
  simp only [List.isEmpty_cons, isPrefixOf_cons_neq _ _ (by decide : '`' ≠ 'a'),
    isPrefixOf_cons_neq _ _ (by decide : '#' ≠ 'a'),
    isPrefixOf_cons_neq _ _ (by decide : '-' ≠ 'a'),
    isPrefixOf_cons_neq _ _ (by decide : '*' ≠ 'a'),
    isPrefixOf_cons_neq _ _ (by decide : '.' ≠ 'a'),
    isPrefixOf_cons_neq _ _ (by decide : '>' ≠ 'a'),
    Bool.or_self, Bool.false_eq_true, if_false, List.headD_cons,
    show ('a').isDigit = false from by decide, Bool.false_and,
    convertLoop_nil, flushParagraph, List.nil_append]
  simp only [show ([('a' :: List.replicate k 'a')] : List (List Char)).isEmpty = false from rfl,
    Bool.false_eq_true, if_false, joinSep, createParagraphBlock]
  rw [show ('a' :: List.replicate k 'a') = List.replicate (k + 1) 'a' from
    (List.replicate_succ 'a' k).symm]
  rw [List.take_replicate]
  rw [Nat.min_comm]

/-! ### Block-size invariant of the compiler -/

theorem goodBlock_paragraph_take (t : List Char) :
    GoodBlock (Block.paragraph (t.take 2000)) := by
  constructor
  · intro u hu
    cases hu
    exact List.length_take_le 2000 t
  · intro lg u hu
    simp at hu

theorem goodBlock_of_not_para_code {b : Block}
    (h1 : ∀ t, b ≠ Block.paragraph t) (h2 : ∀ lg t, b ≠ Block.code lg t) : GoodBlock b := by
  constructor
  · intro t ht
    exact absurd ht (h1 t)
  · intro lg t ht
    exact absurd ht (h2 lg t)

theorem flushParagraph_good {para : List (List Char)} {b : Block}
    (hb : b ∈ flushParagraph para) : GoodBlock b := by
  unfold flushParagraph at hb
  split at hb
  · simp at hb
  · simp only [List.mem_singleton] at hb
    subst hb
    exact goodBlock_paragraph_take _

theorem goodBlock_code_js (t : List Char) : GoodBlock (Block.code "javascript".data t) := by
  constructor
  · intro u hu
    simp at hu
  · intro lg u hu hne
    cases hu
    exact absurd rfl hne

theorem goodBlock_code_short {lg t : List Char} (h : t.length ≤ 2000) :
    GoodBlock (Block.code lg t) := by
  constructor
  · intro u hu
    simp at hu
  · intro lg2 u hu _
    cases hu
    exact h

theorem fence_newBlocks_good (lang codeText : List Char) (b : Block)
    (hb : b ∈
      (if asciiLower lang = "mermaid".data then [Block.code "javascript".data codeText]
       else
         if codeText.length ≤ 2000 then
           [Block.code ((dictGet (asciiLower lang) notionLangs).getD "plain text".data)
             codeText]
         else
           (splitCodeAtBoundaries codeText 2000).map
             (fun chunk =>
               Block.code ((dictGet (asciiLower lang) notionLangs).getD "plain text".data)
                 chunk))) :
    GoodBlock b := by
  by_cases hm : asciiLower lang = "mermaid".data
  · rw [if_pos hm] at hb
    simp only [List.mem_singleton] at hb
    subst hb
    exact goodBlock_code_js _
  · rw [if_neg hm] at hb
    by_cases hlen : codeText.length ≤ 2000
    · rw [if_pos hlen] at hb
      simp only [List.mem_singleton] at hb
      subst hb
      exact goodBlock_code_short hlen
    · rw [if_neg hlen] at hb
      simp only [List.mem_map] at hb
      obtain ⟨chunk, hchunk, rfl⟩ := hb
      exact goodBlock_code_short (splitCode_chunk_le (by omega) chunk hchunk)

theorem convertLoop_good : ∀ (fuel : Nat) (lines para : List (List Char)) (b : Block),
    b ∈ convertLoop fuel lines para → GoodBlock b := by
  intro fuel
  induction fuel with
  | zero =>
    intro lines para b hb
    exact flushParagraph_good hb
  | succ fuel ih =>
    intro lines para b hb
    cases lines with
    | nil => exact flushParagraph_good hb
    | cons l rest =>
      simp only [convertLoop] at hb
      split at hb
      · rcases List.mem_append.mp hb with h | h
        · exact flushParagraph_good h
        · exact ih rest [] b h
      · split at hb
        · rcases List.mem_append.mp hb with h | h
          · rcases List.mem_append.mp h with h2 | h2
            · exact flushParagraph_good h2
            · exact fence_newBlocks_good _ _ b h2
          · exact ih _ [] b h
        · split at hb
          · rcases List.mem_append.mp hb with h | h
            · rcases List.mem_append.mp h with h2 | h2
              · exact flushParagraph_good h2
              · simp only [List.mem_singleton] at h2
                subst h2
                exact goodBlock_of_not_para_code (by simp) (by simp)
            · exact ih rest [] b h
          · split at hb
            · rcases List.mem_append.mp hb with h | h
              · rcases List.mem_append.mp h with h2 | h2
                · exact flushParagraph_good h2
                · simp only [List.mem_singleton] at h2
                  subst h2
                  exact goodBlock_of_not_para_code (by simp) (by simp)
              · exact ih rest [] b h
            · split at hb
              · rcases List.mem_append.mp hb with h | h
                · rcases List.mem_append.mp h with h2 | h2
                  · exact flushParagraph_good h2
                  · simp only [List.mem_singleton] at h2
                    subst h2
                    exact goodBlock_of_not_para_code (by simp) (by simp)
                · exact ih rest [] b h
              · split at hb
                · rcases List.mem_append.mp hb with h | h
                  · rcases List.mem_append.mp h with h2 | h2
                    · exact flushParagraph_good h2
                    · simp only [List.mem_singleton] at h2
                      subst h2
                      exact goodBlock_of_not_para_code (by simp) (by simp)
                  · exact ih rest [] b h
                · split at hb
                  · rcases List.mem_append.mp hb with h | h
                    · rcases List.mem_append.mp h with h2 | h2
                      · exact flushParagraph_good h2
                      · simp only [List.mem_singleton] at h2
                        subst h2
                        exact goodBlock_of_not_para_code (by simp) (by simp)
                    · exact ih rest [] b h
                  · split at hb
                    · rcases List.mem_append.mp hb with h | h
                      · rcases List.mem_append.mp h with h2 | h2
                        · exact flushParagraph_good h2
                        · simp only [List.mem_singleton] at h2
                          subst h2
                          exact goodBlock_of_not_para_code (by simp) (by simp)
                      · exact ih rest [] b h
                    · exact ih rest _ b hb

/-! ### Splitting a 5000-character boundary-free payload -/

theorem rfindSub_rep_a (c0 : Char) (p : List Char) (h : c0 ≠ 'a') (n : Nat) :
    rfindSub (c0 :: p) (List.replicate n 'a') = none := rfindSub_replicate rfl h

theorem punctTry_rep_a (n m : Nat) {p : Char} (hp : p ≠ 'a') :
    punctTry (List.replicate n 'a') m p = none := by
  unfold punctTry
  rw [rfindSub_rep_a p [] hp n]

theorem splitPos_rep_a (n m : Nat) : splitPos (List.replicate n 'a') m = m := by
  unfold splitPos splitPosAfterDnl splitPosTail punctSplit
  rw [show dnl = '\n' :: ['\n'] from rfl]
  simp only [rfindSub_rep_a '\n' ['\n'] (by decide) n, rfindSub_rep_a ';' [] (by decide) n,
    rfindSub_rep_a '\n' [] (by decide) n,
    punctTry_rep_a n m (show '.' ≠ 'a' from by decide),
    punctTry_rep_a n m (show ':' ≠ 'a' from by decide),
    punctTry_rep_a n m (show '!' ≠ 'a' from by decide)]

theorem splitGo_rep_a_step (fuel n m : Nat) (h : m < n) :
    splitGo (fuel + 1) (List.replicate n 'a') m =
      List.replicate m 'a' :: splitGo fuel (List.replicate (n - m) 'a') m := by
  have hlen : m < (List.replicate n 'a').length := by
    rw [List.length_replicate]
    exact h
  have htake : List.take m (List.replicate n 'a') = List.replicate m 'a' := by
    rw [List.take_replicate, Nat.min_eq_left (Nat.le_of_lt h)]
  simp only [splitGo, if_pos hlen, htake, splitPos_rep_a, List.drop_replicate]

theorem splitGo_rep_a_last (fuel n m : Nat) (h : n ≤ m) (hn : n ≠ 0) :
    splitGo fuel (List.replicate n 'a') m = [List.replicate n 'a'] := by
  cases fuel with
  | zero =>
    simp only [splitGo, List.length_replicate]
    rw [if_neg hn]
  | succ f =>
    simp only [splitGo, List.length_replicate]
    rw [if_neg (show ¬ m < n from by omega), if_neg hn]

theorem splitCode_rep_5000 :
    splitCodeAtBoundaries (List.replicate 5000 'a') 2000 =
      [List.replicate 2000 'a', List.replicate 2000 'a', List.replicate 1000 'a'] := by
  unfold splitCodeAtBoundaries
  rw [List.length_replicate, if_neg (by norm_num)]
  rw [show (5000 : Nat) = 4999 + 1 from rfl, splitGo_rep_a_step 4999 5000 2000 (by norm_num)]
  rw [show (5000 : Nat) - 2000 = 3000 from rfl]
  rw [show (4999 : Nat) = 4998 + 1 from rfl, splitGo_rep_a_step 4998 3000 2000 (by norm_num)]
  rw [show (3000 : Nat) - 2000 = 1000 from rfl]
  rw [splitGo_rep_a_last 4998 1000 2000 (by norm_num) (by norm_num)]

theorem convertToBlocks_fence_text (T : List Char)
    (hesc : escFree T = true)
    (hfence : ∀ l ∈ pySplitLines T, "```".data.isPrefixOf l = false) :
    convertToBlocks (fenceMd "text".data T) =
      (if T.length ≤ 2000 then [Block.code "plain text".data T]
       else (splitCodeAtBoundaries T 2000).map
         (fun chunk => Block.code "plain text".data chunk)) := by
  rw [convertToBlocks_fence "text".data T (by decide) (by decide) (by decide) (by decide)
    (by decide) hesc hfence]
  rw [if_neg (by decide : ¬(asciiLower "text".data = "mermaid".data))]
  rw [show (dictGet (asciiLower "text".data) notionLangs).getD "plain text".data =
    "plain text".data from by decide]

/-! ## Claim theorems -/

/-- C1, counterexample: the round trip fails as stated.  The label
`javascript` is recognized by the allow-list, the body `graph TD` is short
and fence-free, yet rendering the compiled block produces a `mermaid` fence
(the render-time diagram heuristic fires), not the canonicalized
`javascript` fence the claim requires. -/
theorem c1_counterexample :
    dictGet (asciiLower "javascript".data) notionLangs = some "javascript".data ∧
    ("graph TD".data).length ≤ 2000 ∧
    (∀ l ∈ pySplitLines "graph TD".data, "```".data.isPrefixOf l = false) ∧
    renderBlocks (convertToBlocks (fenceMd "javascript".data "graph TD".data)) =
      Except.ok (fenceMd "mermaid".data "graph TD".data) ∧
    fenceMd "mermaid".data "graph TD".data ≠
      fenceMd (canonLabel "javascript".data) "graph TD".data := by decide

/-- C1 (amended): for every text `T` of length at most 2000 that contains
no line beginning with a triple backtick and none of the escape pairs the
compiler rewrites, and every allow-list-recognized label `L` whose storage
tag is not `javascript`, rendering the compiled fenced block reproduces the
fence with the label canonicalized through the two mapping tables. -/
theorem c1_plain_code_roundtrip_amended (L T tag : List Char)
    (hL : dictGet (asciiLower L) notionLangs = some tag)
    (htag : tag ≠ "javascript".data)
    (hlen : T.length ≤ 2000)
    (hfence : ∀ l ∈ pySplitLines T, "```".data.isPrefixOf l = false)
    (hesc : escFree T = true) :
    renderBlocks (convertToBlocks (fenceMd L T)) = Except.ok (fenceMd (canonLabel L) T) := by
  have hpair : (asciiLower L, tag) ∈ notionLangs := dictGet_mem hL
  have hnl : '\n' ∉ L := label_no_nl (notionLangs_keys_no_nl _ hpair)
  have hbs : '\\' ∉ L := label_no_bs (notionLangs_keys_no_bs _ hpair)
  have hne : L ≠ [] := label_ne_nil (notionLangs_keys_ne_nil _ hpair)
  have hstrip : pyStrip L = L :=
    pyStrip_eq_self_of_lower (notionLangs_keys_strip _ hpair)
  have hrs : pyRstrip ("```".data ++ L) = "```".data ++ L :=
    label_rstrip_fence (notionLangs_keys_rstrip _ hpair)
  have hnm : asciiLower L ≠ "mermaid".data := notionLangs_keys_ne_mermaid _ hpair
  rw [convertToBlocks_fence L T hnl hbs hne hstrip hrs hesc hfence, if_neg hnm, if_pos hlen,
    hL]
  simp only [Option.getD_some]
  have hlow : asciiLower tag = tag := notionLangs_vals_lower _ hpair
  rw [renderBlocks_singleton (blockToText_code_plain hlow htag)]
  unfold canonLabel
  rw [hL]
  simp only [Option.getD_some]

/-- C1, witness: the amended round trip at the recognized label `Python`
(canonicalized to `python`) and body `x = 1`. -/
theorem c1_witness :
    dictGet (asciiLower "Python".data) notionLangs = some "python".data ∧
    escFree "x = 1".data = true ∧
    renderBlocks (convertToBlocks (fenceMd "Python".data "x = 1".data)) =
      Except.ok (fenceMd (canonLabel "Python".data) "x = 1".data) :=
  ⟨by decide, by decide,
    c1_plain_code_roundtrip_amended "Python".data "x = 1".data "python".data (by decide)
      (by decide) (by decide) (by decide) (by decide)⟩

/-- C2 (code bug): render (`_block_to_text`) is not total.  On a stored
code block whose language tag is `javascript` and whose content is the
plain code `hello world` (no diagram keyword, no `subgraph`), the function
reaches `re.search` — but the module never imports `re`, so a `NameError`
escapes, contradicting the claim that render returns a string for every
block. -/
theorem c2_render_raises_on_plain_javascript :
    blockToText (Block.code "javascript".data "hello world".data) = Except.error () := by
  decide

/-- C3, counterexample: the contract fails at the empty text.  The
claim requires no chunk to be empty for every text `T` and `max_length ≥ 1`,
but `_split_code_at_boundaries("", 1)` returns `[""]` — a single empty
chunk. -/
theorem c3_counterexample :
    splitCodeAtBoundaries ([] : List Char) 1 = [[]] ∧
    ([] : List Char) ∈ splitCodeAtBoundaries ([] : List Char) 1 := by decide

/-- C3 (amended): for every text `T` and `max_length ≥ 1`, the in-order
concatenation of the chunks reproduces `T`, every chunk has length at most
`max_length`, and — provided `T` itself is non-empty — no chunk is the
empty string. -/
theorem c3_chunking_contract_amended (T : List Char) (m : Nat) (hm : 1 ≤ m) :
    concatAll (splitCodeAtBoundaries T m) = T ∧
    (∀ c ∈ splitCodeAtBoundaries T m, c.length ≤ m) ∧
    (T ≠ [] → ∀ c ∈ splitCodeAtBoundaries T m, c ≠ []) :=
  ⟨splitCode_concat hm, splitCode_chunk_le hm, fun ht => splitCode_chunk_ne_nil hm ht⟩

/-- C3, witness: the amended chunking contract at `T = "abcdef"`,
`max_length = 4`. -/
theorem c3_witness :
    concatAll (splitCodeAtBoundaries "abcdef".data 4) = "abcdef".data ∧
    (∀ c ∈ splitCodeAtBoundaries "abcdef".data 4, c.length ≤ 4) ∧
    (∀ c ∈ splitCodeAtBoundaries "abcdef".data 4, c ≠ []) := by
  obtain ⟨h1, h2, h3⟩ := c3_chunking_contract_amended "abcdef".data 4 (by decide)
  exact ⟨h1, h2, h3 (by decide)⟩

/-- C4, counterexample: the 2000-character invariant fails for diagram
blocks.  Compiling a `mermaid`-labeled fence whose body is 2001 characters
yields a single code block whose payload has length 2001 — no splitting or
truncation is applied on the mermaid branch. -/
theorem c4_counterexample :
    convertToBlocks (fenceMd "mermaid".data (List.replicate 2001 'a')) =
      [Block.code "javascript".data (List.replicate 2001 'a')] ∧
    2000 < (List.replicate 2001 'a' : List Char).length := by
  constructor
  · rw [convertToBlocks_fence "mermaid".data _ (by decide) (by decide) (by decide) (by decide)
      (by decide) (escFree_of_not_bs (not_bs_rep_a 2001)) (rep_a_fence_lines 2001)]
    rw [if_pos (by decide : asciiLower "mermaid".data = "mermaid".data)]
  · rw [List.length_replicate]
    norm_num

/-- C4 (amended): the payload bound `≤ 2000` holds for every paragraph
block and for every code block whose stored language tag is not the
`javascript` tag used for mermaid payloads; mermaid-origin code blocks and
heading/bullet/quote blocks carry the raw line content and may exceed it. -/
theorem c4_max_unit_size_amended (content : List Char) (b : Block)
    (hb : b ∈ convertToBlocks content) : GoodBlock b :=
  convertLoop_good _ _ _ b hb

/-- C4, witness: the amended invariant applied to the single paragraph
block compiled from the two-character input `hi`. -/
theorem c4_witness : GoodBlock (Block.paragraph "hi".data) :=
  c4_max_unit_size_amended "hi".data (Block.paragraph "hi".data) (by decide)

/-- C5, counterexample: compile does silently truncate.  A single
2001-character line accumulates into one paragraph whose stored payload is
only its first 2000 characters (`text[:2000]` in
`_create_paragraph_block`), so the final character is dropped. -/
theorem c5_counterexample :
    convertToBlocks (List.replicate 2001 'a') =
      [Block.paragraph (List.replicate 2000 'a')] ∧
    (List.replicate 2000 'a' : List Char) ≠ List.replicate 2001 'a' := by
  constructor
  · rw [convertToBlocks_replicate 2001 (by norm_num)]
    rw [show min 2001 2000 = 2000 from by norm_num]
  · intro h
    have := congrArg List.length h
    rw [List.length_replicate, List.length_replicate] at this
    omega

/-- C5 (amended): non-mermaid code payloads are never truncated — the
emitted code blocks concatenate back to the full fenced body — but a
paragraph is emitted with exactly the first 2000 characters of its
accumulated text, silently dropping the rest. -/
theorem c5_no_silent_truncation_amended :
    (∀ T : List Char, escFree T = true →
      (∀ l ∈ pySplitLines T, "```".data.isPrefixOf l = false) →
      concatAll ((convertToBlocks (fenceMd "text".data T)).map codeBody) = T) ∧
    (∀ n : Nat, 1 ≤ n →
      convertToBlocks (List.replicate n 'a') =
        [Block.paragraph (List.replicate (min n 2000) 'a')]) := by
  constructor
  · intro T hesc hfence
    rw [convertToBlocks_fence_text T hesc hfence]
    by_cases hlen : T.length ≤ 2000
    · rw [if_pos hlen]
      simp [codeBody, concatAll]
    · rw [if_neg hlen]
      rw [List.map_map]
      rw [show (codeBody ∘ fun chunk => Block.code "plain text".data chunk) = id from by
        funext chunk
        rfl]
      rw [List.map_id]
      exact splitCode_concat (by omega)
  · exact convertToBlocks_replicate

/-- C5, witness: code preservation at body `ok` and paragraph truncation
behaviour at a three-character line. -/
theorem c5_witness :
    concatAll ((convertToBlocks (fenceMd "text".data "ok".data)).map codeBody) = "ok".data ∧
    convertToBlocks (List.replicate 3 'a') =
      [Block.paragraph (List.replicate (min 3 2000) 'a')] :=
  ⟨c5_no_silent_truncation_amended.1 "ok".data (by decide) (by decide),
    c5_no_silent_truncation_amended.2 3 (by decide)⟩

/-- C6 (code bug): the diagram round trip crashes.  Compiling the mermaid
fence with body `a --> b` stores one `javascript`-tagged code block with
that body, but rendering it reaches the arrow-pattern check `re.search`
in `_block_to_text` — `re` is never imported, so a `NameError` escapes
instead of the claimed `mermaid` fence. -/
theorem c6_diagram_roundtrip_crashes :
    convertToBlocks (fenceMd "mermaid".data "a --> b".data) =
      [Block.code "javascript".data "a --> b".data] ∧
    blockToText (Block.code "javascript".data "a --> b".data) = Except.error () := by
  decide

/-- C7 (confirmed): compiling a fenced block with declared language `text`
and a body of 5000 identical characters yields exactly three code blocks
tagged `plain text` with payload lengths 2000, 2000 and 1000, and their
payloads concatenate back to the original body. -/
theorem c7_oversized_code_splitting :
    convertToBlocks (fenceMd "text".data (List.replicate 5000 'a')) =
      [Block.code "plain text".data (List.replicate 2000 'a'),
       Block.code "plain text".data (List.replicate 2000 'a'),
       Block.code "plain text".data (List.replicate 1000 'a')] ∧
    concatAll
        ((convertToBlocks (fenceMd "text".data (List.replicate 5000 'a'))).map codeBody) =
      List.replicate 5000 'a' := by
  have h : convertToBlocks (fenceMd "text".data (List.replicate 5000 'a')) =
      [Block.code "plain text".data (List.replicate 2000 'a'),
       Block.code "plain text".data (List.replicate 2000 'a'),
       Block.code "plain text".data (List.replicate 1000 'a')] := by
    rw [convertToBlocks_fence_text _ (escFree_of_not_bs (not_bs_rep_a 5000))
      (rep_a_fence_lines 5000)]
    rw [List.length_replicate, if_neg (by norm_num), splitCode_rep_5000]
    rfl
  refine ⟨h, ?_⟩
  rw [h]
  simp only [List.map_cons, List.map_nil, codeBody, concatAll, List.append_nil]
  rw [← List.replicate_add, ← List.replicate_add]

/-- C8 (code bug): the numbered-item branch is unreachable.  Its guard
`line[0].isdigit() and line.startswith('. ')` can never hold (a line whose
first character is a digit cannot start with a period), so the line
`1. item` — which the claim says must become a `numbered_item` block —
is instead appended to the paragraph accumulator and emitted as a
paragraph. -/
theorem c8_numbered_item_unreachable :
    convertToBlocks "1. item".data = [Block.paragraph "1. item".data] ∧
    (∀ l : List Char, ((l.headD ' ').isDigit && ". ".data.isPrefixOf l) = false) := by
  constructor
  · decide
  · intro l
    cases l with
    | nil => rfl
    | cons c t =>
      by_cases hc : c = '.'
      · subst hc
        rfl
      · rw [show ". ".data = '.' :: [' '] from rfl,
          isPrefixOf_cons_neq [' '] t (fun h => hc h.symm), Bool.and_false]

/-- C9, counterexample: the double-newline rule does not fire at exactly
80% of `max_length`.  With `max_length = 20` and the last double newline of
the window at offset 16 = 80% of 20, the claim requires the first chunk to
end right after the double newline (18 characters), but the code uses a
strict comparison, falls through all lower-priority rules, and hard-cuts
the first chunk at 20 characters. -/
theorem c9_counterexample :
    rfindSub dnl ((List.replicate 16 'x' ++ dnl ++ List.replicate 10 'y').take 20) =
      some 16 ∧
    5 * 16 ≥ 4 * 20 ∧
    (splitCodeAtBoundaries (List.replicate 16 'x' ++ dnl ++ List.replicate 10 'y') 20).head? =
      some ((List.replicate 16 'x' ++ dnl ++ List.replicate 10 'y').take 20) ∧
    (List.replicate 16 'x' ++ dnl ++ List.replicate 10 'y').take 20 ≠
      (List.replicate 16 'x' ++ dnl ++ List.replicate 10 'y').take (16 + 2) := by decide

/-- C9 (amended): when the remaining text exceeds `max_length` and the last
double newline of the window sits at an offset strictly greater than 80%
of `max_length` (the source compares with strict `>`), the first emitted
chunk ends immediately after that double newline; at exactly 80% the rule
falls through to the lower-priority rules. -/
theorem c9_double_newline_rule_amended (r : List Char) (m k : Nat) (hr : m < r.length)
    (hk : rfindSub dnl (r.take m) = some k) (hgt : 5 * k > 4 * m) :
    (splitCodeAtBoundaries r m).head? = some (r.take (k + 2)) := by
  unfold splitCodeAtBoundaries
  rw [if_neg (show ¬ r.length ≤ m from by omega)]
  obtain ⟨f, hf⟩ : ∃ f, r.length = f + 1 := ⟨r.length - 1, by omega⟩
  rw [hf]
  have hpos : splitPos (r.take m) m = k + 2 := by
    unfold splitPos
    rw [hk]
    dsimp only
    rw [if_pos hgt]
  simp only [splitGo, if_pos hr, hpos]
  rfl

/-- C9, witness: the amended rule at `max_length = 11` with the double
newline at offset 9 (strictly above 80%): the first chunk is the first 11
characters, ending right after the double newline. -/
theorem c9_witness :
    11 < ("abcdefghi\n\nZZ".data).length ∧
    rfindSub dnl (("abcdefghi\n\nZZ".data).take 11) = some 9 ∧
    5 * 9 > 4 * 11 ∧
    (splitCodeAtBoundaries "abcdefghi\n\nZZ".data 11).head? =
      some (("abcdefghi\n\nZZ".data).take (9 + 2)) :=
  ⟨by decide, by decide, by decide,
    c9_double_newline_rule_amended "abcdefghi\n\nZZ".data 11 9 (by decide) (by decide)
      (by decide)⟩

/-- C10 (confirmed): render returns the empty string for every paragraph
block whose text contains both halves of the Mermaid rendering-notice
boilerplate — whatever else the text contains — and returns the text
unchanged for every other paragraph block. -/
theorem c10_boilerplate_suppression (t : List Char) :
    (pyIn noticeA t = true → pyIn noticeB t = true →
      blockToText (Block.paragraph t) = Except.ok []) ∧
    ((pyIn noticeA t && pyIn noticeB t) = false →
      blockToText (Block.paragraph t) = Except.ok t) := by
  constructor
  · intro h1 h2
    simp only [blockToText, h1, h2, Bool.and_self, if_true]
  · intro h
    simp only [blockToText, h, Bool.false_eq_true, if_false]

/-- C10, witness: the filter suppresses a paragraph carrying both notice
halves plus extra text, and leaves the plain paragraph `hello` unchanged. -/
theorem c10_witness :
    blockToText (Block.paragraph (noticeA ++ " -- ".data ++ noticeB ++ " tail".data)) =
      Except.ok [] ∧
    blockToText (Block.paragraph "hello".data) = Except.ok "hello".data :=
  ⟨(c10_boilerplate_suppression _).1 (by decide) (by decide),
    (c10_boilerplate_suppression _).2 (by decide)⟩

end NotionPublisher
